import Mathlib

/-!
Verification of the tshistogram core: timestamp-format resolution,
leading-instant extraction, the bin aggregator, and the bar scaling of the
renderer, embedded shallowly from `src/main.go` (the file concatenates two
variants of the program: the current map-based one and an older array-based
one; both are embedded below where a claim refers to them).

Conventions of the embedding:
* Absolute instants are integers: nanoseconds since the Unix epoch where the
  bin aggregators are concerned (`goTruncate`, `unixMicro`), microseconds
  since the Unix epoch as the result of the format resolvers (Go's parsers
  produce a `time.Time`; the program only ever consumes it through
  `Truncate`, `UnixMicro`, comparison and formatting, so an integer timestamp
  is a faithful image).
* Go strings are `List Char`; all inputs considered are ASCII, where Go's
  byte indexing and Lean's character indexing agree.
* Go's integer division truncates toward zero: it is `Int.tdiv` (`/` on `Int`
  in Lean is euclidean division and is never used to model Go arithmetic).
* Maps (`map[time.Time]map[string]int`, `map[string]int`) are total functions
  defaulting to 0, which is exactly Go's read semantics for missing keys;
  map iteration order, which Go leaves unspecified, is an explicit
  enumeration-list parameter wherever the program ranges over a map.
-/

namespace TsHist

/-! ## Characters and ASCII helpers -/

def digitVal (c : Char) : Nat := c.toNat - 48

def digitsToNat (l : List Char) : Nat :=
  l.foldl (fun a c => a * 10 + digitVal c) 0

/-- Go `unicode.IsSpace` restricted to ASCII, which is all the inputs below
use: space, tab, newline, carriage return, vertical tab, form feed. -/
def isSpaceCh (c : Char) : Bool :=
  c = ' ' || c = '\t' || c = '\n' || c = '\r' || c = '\x0b' || c = '\x0c'

/-- Go `strings.ToLower` on the ASCII tags used here. -/
def lowerCh (c : Char) : Char :=
  if 'A' ≤ c && c ≤ 'Z' then Char.ofNat (c.toNat + 32) else c

def lowerAscii (s : String) : String := String.mk (s.data.map lowerCh)

/-- Go `strings.TrimSpace` on ASCII text. -/
def trimSpace (l : List Char) : List Char :=
  ((l.dropWhile isSpaceCh).reverse.dropWhile isSpaceCh).reverse

/-- Go `strings.Cut(value, " ")`: the part before the first space and the
part after it (the whole string and `[]` when there is no space). -/
def cutSpace : List Char → (List Char × List Char)
  | [] => ([], [])
  | c :: rest =>
    if c = ' ' then ([], rest)
    else
      let r := cutSpace rest
      (c :: r.1, r.2)

/-! ## Calendar arithmetic

Go's `time` package stores an absolute count of seconds; parsing a civil
date converts it through the proleptic Gregorian calendar.  `daysFromCivil`
is that conversion (days since 1970-01-01), written with floor division. -/

def daysFromCivil (y m d : Int) : Int :=
  let y2 : Int := if m ≤ 2 then y - 1 else y
  let era : Int := y2 / 400
  let yoe : Int := y2 - era * 400
  let mp : Int := if 2 < m then m - 3 else m + 9
  let doy : Int := (153 * mp + 2) / 5 + d - 1
  let doe : Int := yoe * 365 + yoe / 4 - yoe / 100 + doy
  era * 146097 + doe - 719468

/-- Microseconds since the Unix epoch of a civil datetime with a UTC offset
of `off` seconds and `nsec` nanoseconds of fraction. -/
def civilToMicro (y m d hh mi ss : Nat) (nsec : Nat) (off : Int) : Int :=
  (daysFromCivil y m d * 86400 + hh * 3600 + mi * 60 + ss - off) * 1000000
    + nsec / 1000

def isLeapYear (y : Nat) : Bool :=
  y % 4 = 0 && (y % 100 ≠ 0 || y % 400 = 0)

def daysInMonth (y m : Nat) : Nat :=
  if m = 2 then (if isLeapYear y then 29 else 28)
  else if m = 4 || m = 6 || m = 9 || m = 11 then 30
  else 31

/-! ## Model of Go's layout parser for the `RFC3339` pattern

`time.ParseInLocation(time.RFC3339, value, loc)` (the general parse path):
the layout `2006-01-02T15:04:05Z07:00` consumes a prefix of `value`; when
characters remain after the layout is exhausted Go reports an `extra text`
parse error carrying the remaining characters, which is how the program
recovers a trailing label.  The parser below returns `some (instant,
remaining)` in both situations (`remaining = []` when the parse was exact)
and `none` for every other parse error, mirroring that interface.  Field
widths follow Go: the year is exactly 4 digits, month/minute/second exactly
2, the hour 1 or 2, the zone is `Z` or `±hh:mm`, and a fractional second is
accepted after the seconds even though the layout carries none. -/

def takeNumFixed2 : List Char → Option (Nat × List Char)
  | c1 :: c2 :: rest =>
    if c1.isDigit && c2.isDigit then
      some (digitVal c1 * 10 + digitVal c2, rest)
    else none
  | _ => none

def takeNumFixed4 : List Char → Option (Nat × List Char)
  | c1 :: c2 :: c3 :: c4 :: rest =>
    if c1.isDigit && c2.isDigit && c3.isDigit && c4.isDigit then
      some (digitsToNat [c1, c2, c3, c4], rest)
    else none
  | _ => none

/-- Go `getnum(value, false)`: one digit, or two when a second digit
follows. -/
def takeNumFlex : List Char → Option (Nat × List Char)
  | c1 :: c2 :: rest =>
    if c1.isDigit then
      if c2.isDigit then some (digitVal c1 * 10 + digitVal c2, rest)
      else some (digitVal c1, c2 :: rest)
    else none
  | [c1] => if c1.isDigit then some (digitVal c1, []) else none
  | [] => none

def takeLit (c : Char) : List Char → Option (List Char)
  | c1 :: rest => if c1 = c then some rest else none
  | [] => none

/-- The optional fractional second Go accepts after the seconds field:
`.` or `,` followed by at least one digit; at most 9 digits of precision. -/
def takeFrac (v : List Char) : Nat × List Char :=
  match v with
  | c0 :: c1 :: _ =>
    if (c0 = '.' || c0 = ',') && c1.isDigit then
      let ds := (v.drop 1).takeWhile Char.isDigit
      let rest := (v.drop 1).dropWhile Char.isDigit
      if ds.length ≤ 9 then
        (digitsToNat ds * 10 ^ (9 - ds.length), rest)
      else (0, rest)
    else (0, v)
  | _ => (0, v)

/-- The `Z07:00` zone chunk: `Z`, or a sign with `hh:mm`. -/
def takeZoneColon : List Char → Option (Int × List Char)
  | 'Z' :: rest => some (0, rest)
  | c0 :: h1 :: h2 :: ':' :: m1 :: m2 :: rest =>
    if (c0 = '+' || c0 = '-') && h1.isDigit && h2.isDigit
        && m1.isDigit && m2.isDigit then
      let secs : Int :=
        (digitVal h1 * 10 + digitVal h2) * 3600
          + (digitVal m1 * 10 + digitVal m2) * 60
      some (if c0 = '-' then -secs else secs, rest)
    else none
  | _ => none

def goParseRFC3339 (v : List Char) : Option (Int × List Char) := do
  let (yr, v) ← takeNumFixed4 v
  let v ← takeLit '-' v
  let (mo, v) ← takeNumFixed2 v
  let v ← takeLit '-' v
  let (dy, v) ← takeNumFixed2 v
  let v ← takeLit 'T' v
  let (hh, v) ← takeNumFlex v
  let v ← takeLit ':' v
  let (mi, v) ← takeNumFixed2 v
  let v ← takeLit ':' v
  let (ss, v) ← takeNumFixed2 v
  let (ns, v) := takeFrac v
  let (off, v) ← takeZoneColon v
  if 1 ≤ mo && mo ≤ 12 && 1 ≤ dy && dy ≤ daysInMonth yr mo
      && hh ≤ 23 && mi ≤ 59 && ss ≤ 59 then
    some (civilToMicro yr mo dy hh mi ss ns off, v)
  else none

/-- The instant Go produces when a parse fills in no field at all: January 1
of year 0, 00:00:00 UTC (`time.Time` zero value). -/
def zeroInstant : Int := civilToMicro 0 1 1 0 0 0 0 0

/-- Model of Go's parse for a layout string containing no reference-time
chunk (such as the misspelled tag `unix-milli` when it falls through to the
`default` branch and is tried verbatim): such a layout is a single literal
that must match the value character for character (Go's `skip`, with the
rule that a space in the layout matches a run of spaces); the rest of the
value is returned as the `extra text` remainder and the parse yields the
zero time since no field was set. -/
def goSkipLit (inRun : Bool) : List Char → List Char → Option (List Char)
  | [], v => some v
  | c :: lrest, v =>
    if c = ' ' then
      -- a run of layout spaces matches one run of value spaces; the flag
      -- records that the current run's value spaces were already consumed
      if inRun then goSkipLit true lrest v
      else
        match v with
        | [] => goSkipLit true lrest []
        | v0 :: _ =>
          if v0 = ' ' then
            goSkipLit true lrest (v.dropWhile (fun x => x = ' '))
          else none
    else
      match v with
      | v0 :: vrest => if v0 = c then goSkipLit false lrest vrest else none
      | [] => none

def goParseLiteral (layout v : List Char) : Option (Int × List Char) :=
  (goSkipLit false layout v).map (fun rest => (zeroInstant, rest))

/-! ## The format resolver of `src/main.go` (current variant)

`parsePrefixFloat`, `parsePrefixedTime` and `parseTime` below are the
functions of the same names at src/main.go:40-118.  A layout parser is a
function `List Char → Option (Int × List Char)` per the interface described
above `goParseRFC3339`. -/

/-- A decimal literal as Go's `strconv.ParseFloat` reads the tokens used
here: integer digits and an optional fractional part (`intPart`, fractional
digits value, number of fractional digits).  Signs, exponents and the other
spellings `ParseFloat` accepts never occur in the claims and are outside
the model. -/
def parseDec (v : List Char) : Option (Nat × Nat × Nat) :=
  match v.span Char.isDigit with
  | ([], _) => none
  | (ds, []) => some (digitsToNat ds, 0, 0)
  | (ds, '.' :: fs) =>
    if fs ≠ [] && fs.all Char.isDigit then
      some (digitsToNat ds, digitsToNat fs, fs.length)
    else none
  | _ => none

/-- `parsePrefixFloat` (src/main.go:40-47): cut the value at the first
space, parse the first part as a float, return it with the trimmed
remainder. -/
def parsePrefixFloat (value : List Char) : Option ((Nat × Nat × Nat) × List Char) :=
  let vs := cutSpace value
  (parseDec vs.1).map (fun f => (f, trimSpace vs.2))

/-- `time.UnixMicro(int64(f * scale))` for a nonnegative decimal `f` and a
scale in microseconds: exact integer arithmetic where Go multiplies
float64s (the difference is only float rounding on fractions finer than the
scale, which no claim exercises). -/
def epochMicroOf (scale : Nat) (f : Nat × Nat × Nat) : Int :=
  (f.1 * scale + f.2.1 * scale / 10 ^ f.2.2 : Nat)

/-- `parsePrefixedTime` (src/main.go:49-57): one parse attempt of the whole
value; when the layout matched a proper prefix (Go's `extra text` error)
the prefix is re-parsed — ignoring its error, so the zero time stands in
when it fails — and the trimmed remainder is returned as the label. -/
def parsePrefixedTime (p : List Char → Option (Int × List Char))
    (value : List Char) : Option (Int × List Char) :=
  match p value with
  | none => none
  | some (t, rest) =>
    if rest = [] then some (t, [])
    else
      let pfx := value.take (value.length - rest.length)
      match p pfx with
      | some (t2, _) => some (t2, trimSpace rest)
      | none => some (zeroInstant, trimSpace rest)

/-- Named catalog tags whose Go reference patterns are not modelled here; no
claim below exercises them, so their branch of `parseTime` is mapped to a
failure marker rather than to an unfaithful parser. -/
def unmodeledTags : List String :=
  ["ansic", "unixdate", "rubydate", "rfc822", "rfc822z", "rfc850",
   "rfc1123", "rfc1123z", "rfc3339nano", "kitchen", "stamp", "stampmilli",
   "stampmicro", "stampnano", "datetime", "dateonly", "timeonly"]

/-- `parseTime` (src/main.go:59-118): switch on the lowercased format tag.
Note the epoch tags are spelled `unix.milli` / `unix.micro` with a dot in
the switch, while the help text of the same file spells them
`Unix-Milli` / `Unix-Micro`.  Every unrecognized tag falls through to the
`default` branch, which tries the tag itself as a layout pattern. -/
def parseTime (layout : String) (value : List Char) : Option (Int × List Char) :=
  match lowerAscii layout with
  | "unix" => (parsePrefixFloat value).map
      (fun r => (epochMicroOf 1000000 r.1, r.2))
  | "unix.milli" => (parsePrefixFloat value).map
      (fun r => (epochMicroOf 1000 r.1, r.2))
  | "unix.micro" => (parsePrefixFloat value).map
      (fun r => (epochMicroOf 1 r.1, r.2))
  | "rfc3339" => parsePrefixedTime goParseRFC3339 value
  | tag =>
    if tag ∈ unmodeledTags then none
    else parsePrefixedTime (goParseLiteral tag.data) value

end TsHist

namespace TsHist

/-! ## The spec's leading-token extraction (for comparison with the code)

Claim C3 describes extraction as iteration over whitespace-field prefixes.
The definitions below follow the spec's words (section 4.3) so that the
code's `parsePrefixedTime` can be compared against them. -/

/-- Whitespace-splitting of a line into fields (the spec's "split the line
on whitespace into fields", Go `strings.Fields`): maximal runs of
non-space characters. -/
def splitFields (l : List Char) : List (List Char) :=
  (l.foldr
    (fun c acc =>
      if isSpaceCh c then [] :: acc
      else
        match acc with
        | [] => [[c]]
        | g :: gs => (c :: g) :: gs)
    []).filter (fun g => g ≠ [])

/-- Single-space rejoin of fields. -/
def joinFields : List (List Char) → List Char
  | [] => []
  | [f] => f
  | f :: fs => f ++ ' ' :: joinFields fs

/-- A strict resolver out of a layout parser: the token must be consumed
entirely (the spec's resolver fails on "trailing or missing characters"). -/
def strictOf (p : List Char → Option (Int × List Char)) (tok : List Char) :
    Option Int :=
  match p tok with
  | some (t, []) => some t
  | _ => none

/-- Modelled from the spec: section 4.3's `extractLeadingInstant` algorithm —
"for increasing prefix lengths (1, 2, 3, … fields), rejoin the prefix with
single spaces and attempt `resolve(tag, prefix)`; on first success, the
remaining fields (rejoined) become the residual label"; no parsing prefix
means the line is dropped.  This is the claimed behaviour, stated for
comparison with the code's `parsePrefixedTime`. -/
def extractAux (res : List Char → Option Int) (taken : List (List Char)) :
    List (List Char) → Option (Int × List Char)
  | [] => none
  | f :: fs =>
    match res (joinFields (taken ++ [f])) with
    | some t => some (t, joinFields fs)
    | none => extractAux res (taken ++ [f]) fs

def extractLeadingInstant (res : List Char → Option Int) (line : List Char) :
    Option (Int × List Char) :=
  extractAux res [] (splitFields line)

end TsHist

namespace TsHist

/-! ## The format catalog and guess engine of the spec (C4)

`src/main_test.go` exercises `stringToTime(input, "")` expecting
auto-detection, but `stringToTime` and the Guess Engine are not defined
under src/ (only their tests are).  The definitions below are therefore
modelled from the spec. -/

/-- Modelled from the spec: the Format Resolver for a named tag (spec
section 4.1) — missing from src/ together with `stringToTime`.  Epoch-scale
tags parse the token as a nonnegative decimal and scale to microseconds;
catalog layouts parse strictly (trailing characters fail).  The catalog
fragment modelled covers the tags the claims exercise. -/
def resolveNamed (tag : String) (tok : List Char) : Option Int :=
  match lowerAscii tag with
  | "unix" => (parseDec tok).map (epochMicroOf 1000000)
  | "unix-milli" => (parseDec tok).map (epochMicroOf 1000)
  | "unix-micro" => (parseDec tok).map (epochMicroOf 1)
  | "rfc3339" => strictOf goParseRFC3339 tok
  | _ => none

/-- Modelled from the spec: the ordered Guess Rule list (spec section 4.2):
each rule is a pattern with an ordered candidate-tag list; purely numeric
tokens of plausible epoch length are assumed epoch-like; a digits-dash
shape selects the RFC3339-style candidate. -/
def guessRules : List ((List Char → Bool) × List String) :=
  [(fun tok => (tok ≠ [] && tok.all Char.isDigit)
      && 10 ≤ tok.length && tok.length ≤ 19,
    ["unix", "unix-milli", "unix-micro"]),
   (fun tok =>
      match tok with
      | a :: b :: c :: d :: '-' :: _ =>
        a.isDigit && b.isDigit && c.isDigit && d.isDigit
      | _ => false,
    ["rfc3339"])]

/-- Modelled from the spec: the Guess Engine — only the first matching
rule is consulted; its candidates are tried in order; first successful
parse wins. -/
def guessModel (tok : List Char) : Option Int :=
  match guessRules.find? (fun r => r.1 tok) with
  | none => none
  | some r => r.2.findSome? (fun tg => resolveNamed tg tok)

/-- Modelled from the spec: `resolve(tag, token)` — an empty tag delegates
entirely to the Guess Engine. -/
def resolveModel (tag : String) (tok : List Char) : Option Int :=
  if tag = "" then guessModel tok else resolveNamed tag tok

end TsHist

namespace TsHist

/-! ## Claims C3, C4, C5 -/

/-- C3 counterexample: the claim says leading-instant extraction tries
whitespace-field prefixes of increasing length against the resolver.  On
the line `2006-01-02T15:04:05Zx y` with the RFC3339 layout, that algorithm
parses no prefix (both field prefixes carry trailing characters) and drops
the line, while the code's `parsePrefixedTime` succeeds: Go's single parse
attempt matches the layout against the first 20 characters — splitting in
the middle of the first field — and returns the remainder `x y` as the
label.  So the claimed equivalence fails at this line. -/
theorem C3_counterexample :
    ¬ (parsePrefixedTime goParseRFC3339 "2006-01-02T15:04:05Zx y".data
        = extractLeadingInstant (strictOf goParseRFC3339)
            "2006-01-02T15:04:05Zx y".data) := by
  decide

/-- C3 amended: extraction makes a single parse attempt of the whole line;
the layout consumes a character prefix and the trimmed remainder becomes
the residual label, with the split point at the end of the layout match —
not necessarily at a field boundary — and a line is dropped only when that
single attempt fails outright.  On a line whose timestamp ends at a field
boundary this coincides with the spec's field-prefix iteration; on
`...05Zx y` the code still succeeds with label `x y` although no field
prefix parses; an unparseable line is dropped. -/
theorem C3_amended_single_attempt :
    parsePrefixedTime goParseRFC3339 "2006-01-02T15:04:05Z alpha beta".data
      = some (1136214245000000, "alpha beta".data)
    ∧ extractLeadingInstant (strictOf goParseRFC3339)
        "2006-01-02T15:04:05Z alpha beta".data
      = some (1136214245000000, "alpha beta".data)
    ∧ parsePrefixedTime goParseRFC3339 "2006-01-02T15:04:05Zx y".data
      = some (1136214245000000, "x y".data)
    ∧ extractLeadingInstant (strictOf goParseRFC3339)
        "2006-01-02T15:04:05Zx y".data = none
    ∧ parsePrefixedTime goParseRFC3339 "not-a-date".data = none := by
  decide

/-- C4: with an empty format tag, resolution delegates to the Guess Engine,
and for the representative tokens of the spec — `1136239445` for the unix
epoch layout, `2006-01-02T15:04:05Z` for the RFC3339 layout — guessing
returns the same instant as resolving with the named tag (modelled from
the spec: `stringToTime` and the Guess Engine are absent from src/). -/
theorem C4_empty_tag_delegates_to_guess :
    (∀ tok, resolveModel "" tok = guessModel tok)
    ∧ resolveModel "" "1136239445".data = resolveModel "unix" "1136239445".data
    ∧ (resolveModel "unix" "1136239445".data).isSome = true
    ∧ resolveModel "" "2006-01-02T15:04:05Z".data
        = resolveModel "rfc3339" "2006-01-02T15:04:05Z".data
    ∧ (resolveModel "rfc3339" "2006-01-02T15:04:05Z".data).isSome = true := by
  refine ⟨fun tok => rfl, ?_, ?_, ?_, ?_⟩ <;> decide

/-- C5: the claim (and the program's own help text, which lists
`Unix-Milli  "1136239445000"`, and its tests, which call
`stringToTime("1136239445000", "unix-milli")`) says the tag `unix-milli`
names the milliseconds epoch scale.  The switch in `parseTime`
(src/main.go:67) matches `unix.milli` with a dot instead: the lowercased
tag `unix-milli` misses every named case, falls to the `default` branch,
is tried verbatim as a layout pattern, and fails on a numeric token — while
the dotted spelling parses it as milliseconds (1136239445000 ms =
1136239445000000 µs).  The code contradicts its own documentation. -/
theorem C5_unix_milli_is_rejected :
    parseTime "unix-milli" "1136239445000".data = none
    ∧ parseTime "Unix-Milli" "1136239445000".data = none
    ∧ parseTime "unix.milli" "1136239445000".data
        = some (1136239445000000, []) := by
  decide

end TsHist

namespace TsHist

/-! ## Ingestion (C6): src/main.go:218-231 -/

/-- An ingested item (src/main.go:31-34): parsed instant and residual
label. -/
structure Item where
  ts : Int
  text : List Char
deriving DecidableEq

/-- The scan loop (src/main.go:220-226): parse each line with the
configured format; a line whose parse errors is skipped with `continue`;
otherwise the item is appended. -/
def scanItems (pt : List Char → Option (Int × List Char))
    (linesIn : List (List Char)) : List Item :=
  linesIn.filterMap (fun l => (pt l).map (fun r => Item.mk r.1 r.2))

/-- The reported `Total: %d items` (src/main.go:231). -/
def totalCount (pt : List Char → Option (Int × List Char))
    (linesIn : List (List Char)) : Nat :=
  (scanItems pt linesIn).length

lemma length_scanItems (pt : List Char → Option (Int × List Char))
    (linesIn : List (List Char)) :
    totalCount pt linesIn = linesIn.countP (fun l => (pt l).isSome) := by
  induction linesIn with
  | nil => rfl
  | cons x xs ih =>
    simp only [totalCount, scanItems, List.filterMap_cons, List.countP_cons]
      at ih ⊢
    cases h : pt x with
    | none => simpa [h] using ih
    | some v => simpa [h, Nat.add_comm] using congrArg Nat.succ ih

/-- C6: a line on which timestamp resolution fails is silently skipped —
removing it from the stream leaves the ingested items unchanged — and the
reported total is exactly the number of lines whose parse succeeded. -/
theorem C6_failed_lines_skipped (pt : List Char → Option (Int × List Char))
    (pre post : List (List Char)) (bad : List Char) (hbad : pt bad = none) :
    totalCount pt (pre ++ bad :: post)
        = (pre ++ bad :: post).countP (fun l => (pt l).isSome)
    ∧ scanItems pt (pre ++ bad :: post) = scanItems pt (pre ++ post)
    ∧ totalCount pt (pre ++ bad :: post) = totalCount pt (pre ++ post) := by
  refine ⟨length_scanItems pt _, ?_, ?_⟩
  · simp [scanItems, List.filterMap_append, List.filterMap_cons, hbad]
  · simp [totalCount, scanItems, List.filterMap_append, List.filterMap_cons,
      hbad]

/-- Witness for C6 at the spec's own scenario: `not-a-date` fails to parse
under the `unix` tag and is excluded from the total. -/
theorem C6_witness :
    parseTime "unix" "not-a-date".data = none
    ∧ (totalCount (parseTime "unix")
          (["1136239445".data] ++ "not-a-date".data :: [])
          = (["1136239445".data] ++ "not-a-date".data :: []).countP
              (fun l => (parseTime "unix" l).isSome)
      ∧ scanItems (parseTime "unix")
            (["1136239445".data] ++ "not-a-date".data :: [])
          = scanItems (parseTime "unix") (["1136239445".data] ++ [])
      ∧ totalCount (parseTime "unix")
            (["1136239445".data] ++ "not-a-date".data :: [])
          = totalCount (parseTime "unix") (["1136239445".data] ++ [])) :=
  ⟨by decide,
   C6_failed_lines_skipped (parseTime "unix") ["1136239445".data] []
     "not-a-date".data (by decide)⟩

end TsHist

namespace TsHist

/-! ## The bin aggregator of the current variant (C2): src/main.go:236-265 -/

/-- Nanoseconds from the Go zero time (January 1 of year 1, UTC) to the
Unix epoch: 62135596800 seconds.  Go's `Truncate` aligns to multiples of
the duration since the zero time, not since the epoch. -/
def zeroOffsetNs : Int := 62135596800000000000

/-- `t.Truncate(d)`: round `t` down to a multiple of `d` since the Go zero
time; a non-positive `d` returns `t` unchanged. -/
def goTruncate (d t : Int) : Int :=
  if 0 < d then t - (t + zeroOffsetNs) % d else t

/-- The aggregation state of the scan (src/main.go:236-240): running
minimum and maximum instants, the `bins` map-of-maps and the `tags` map,
missing keys reading as 0. -/
structure AggState where
  timeMin : Int
  timeMax : Int
  binsF : Int → List Char → Nat
  tagsF : List Char → Nat

attribute [ext] AggState

/-- The loop body (src/main.go:241-258). -/
def aggStep (gap : Int) (s : AggState) (it : Item) : AggState :=
  { timeMin := min s.timeMin it.ts
    timeMax := max s.timeMax it.ts
    binsF := fun t l =>
      if t = goTruncate gap it.ts ∧ l = it.text then s.binsF t l + 1
      else s.binsF t l
    tagsF := fun l => if l = it.text then s.tagsF l + 1 else s.tagsF l }

def aggInit (x : Item) : AggState :=
  ⟨x.ts, x.ts, fun _ _ => 0, fun _ => 0⟩

/-- src/main.go:232-258: an empty item list returns before aggregating;
otherwise `timeMin`/`timeMax` start from `items[0]` and one pass over all
the items fills `bins` and `tags`. -/
def aggregate (gap : Int) (items : List Item) : Option AggState :=
  match items with
  | [] => none
  | x :: rest => some ((x :: rest).foldl (aggStep gap) (aggInit x))

lemma foldl_aggStep_timeMin (gap : Int) (l : List Item) (s : AggState) :
    (l.foldl (aggStep gap) s).timeMin
      = List.foldl min s.timeMin (l.map Item.ts) := by
  induction l generalizing s with
  | nil => rfl
  | cons x xs ih => simpa [aggStep] using ih (aggStep gap s x)

lemma foldl_aggStep_timeMax (gap : Int) (l : List Item) (s : AggState) :
    (l.foldl (aggStep gap) s).timeMax
      = List.foldl max s.timeMax (l.map Item.ts) := by
  induction l generalizing s with
  | nil => rfl
  | cons x xs ih => simpa [aggStep] using ih (aggStep gap s x)

lemma foldl_aggStep_binsF (gap : Int) (l : List Item) (s : AggState)
    (t : Int) (lab : List Char) :
    (l.foldl (aggStep gap) s).binsF t lab
      = s.binsF t lab
        + l.countP (fun it =>
            decide (t = goTruncate gap it.ts) && decide (lab = it.text)) := by
  induction l generalizing s with
  | nil => rfl
  | cons x xs ih =>
    simp only [List.foldl_cons, List.countP_cons, ih (aggStep gap s x)]
    by_cases h : t = goTruncate gap x.ts ∧ lab = x.text
    · simp [aggStep, h.1, h.2]
      omega
    · have hb : (decide (t = goTruncate gap x.ts)
          && decide (lab = x.text)) = false := by
        rcases Decidable.not_and_iff_or_not.mp h with h1 | h1 <;> simp [h1]
      simp [aggStep, h, hb]

lemma foldl_aggStep_tagsF (gap : Int) (l : List Item) (s : AggState)
    (lab : List Char) :
    (l.foldl (aggStep gap) s).tagsF lab
      = s.tagsF lab + l.countP (fun it => decide (lab = it.text)) := by
  induction l generalizing s with
  | nil => rfl
  | cons x xs ih =>
    simp only [List.foldl_cons, List.countP_cons, ih (aggStep gap s x)]
    by_cases h : lab = x.text
    · simp [aggStep, h]
      omega
    · simp [aggStep, h]

lemma foldlMin_mem (a : Int) (l : List Int) :
    List.foldl min a l = a ∨ List.foldl min a l ∈ l := by
  induction l generalizing a with
  | nil => exact Or.inl rfl
  | cons x xs ih =>
    rcases ih (min a x) with h | h
    · rcases min_cases a x with ⟨he, _⟩ | ⟨he, _⟩
      · exact Or.inl (by rw [List.foldl_cons, h, he])
      · exact Or.inr (by rw [List.foldl_cons, h, he]; exact List.mem_cons_self _ _)
    · exact Or.inr (List.mem_cons_of_mem _ h)

lemma foldlMin_le (a : Int) (l : List Int) :
    List.foldl min a l ≤ a ∧ ∀ x ∈ l, List.foldl min a l ≤ x := by
  induction l generalizing a with
  | nil => exact ⟨le_refl a, by simp⟩
  | cons x xs ih =>
    obtain ⟨h1, h2⟩ := ih (min a x)
    refine ⟨le_trans h1 (min_le_left a x), ?_⟩
    intro y hy
    rcases List.mem_cons.mp hy with rfl | hy
    · exact le_trans h1 (min_le_right a y)
    · exact h2 y hy

lemma foldlMax_mem (a : Int) (l : List Int) :
    List.foldl max a l = a ∨ List.foldl max a l ∈ l := by
  induction l generalizing a with
  | nil => exact Or.inl rfl
  | cons x xs ih =>
    rcases ih (max a x) with h | h
    · rcases max_cases a x with ⟨he, _⟩ | ⟨he, _⟩
      · exact Or.inl (by rw [List.foldl_cons, h, he])
      · exact Or.inr (by rw [List.foldl_cons, h, he]; exact List.mem_cons_self _ _)
    · exact Or.inr (List.mem_cons_of_mem _ h)

lemma foldlMax_ge (a : Int) (l : List Int) :
    a ≤ List.foldl max a l ∧ ∀ x ∈ l, x ≤ List.foldl max a l := by
  induction l generalizing a with
  | nil => exact ⟨le_refl a, by simp⟩
  | cons x xs ih =>
    obtain ⟨h1, h2⟩ := ih (max a x)
    refine ⟨le_trans (le_max_left a x) h1, ?_⟩
    intro y hy
    rcases List.mem_cons.mp hy with rfl | hy
    · exact le_trans (le_max_right a y) h1
    · exact h2 y hy

/-- Two runs of a min-fold whose seeds are members of their (mutually
permuted) lists compute the same value: both are the least element. -/
lemma foldlMin_perm (l₁ l₂ : List Int) (a₁ a₂ : Int) (hp : l₁.Perm l₂)
    (ha₁ : a₁ ∈ l₁) (ha₂ : a₂ ∈ l₂) :
    List.foldl min a₁ l₁ = List.foldl min a₂ l₂ := by
  have m₁mem : List.foldl min a₁ l₁ ∈ l₁ := by
    rcases foldlMin_mem a₁ l₁ with h | h
    · rw [h]; exact ha₁
    · exact h
  have m₂mem : List.foldl min a₂ l₂ ∈ l₂ := by
    rcases foldlMin_mem a₂ l₂ with h | h
    · rw [h]; exact ha₂
    · exact h
  exact le_antisymm
    ((foldlMin_le a₁ l₁).2 _ (hp.symm.subset m₂mem))
    ((foldlMin_le a₂ l₂).2 _ (hp.subset m₁mem))

lemma foldlMax_perm (l₁ l₂ : List Int) (a₁ a₂ : Int) (hp : l₁.Perm l₂)
    (ha₁ : a₁ ∈ l₁) (ha₂ : a₂ ∈ l₂) :
    List.foldl max a₁ l₁ = List.foldl max a₂ l₂ := by
  have m₁mem : List.foldl max a₁ l₁ ∈ l₁ := by
    rcases foldlMax_mem a₁ l₁ with h | h
    · rw [h]; exact ha₁
    · exact h
  have m₂mem : List.foldl max a₂ l₂ ∈ l₂ := by
    rcases foldlMax_mem a₂ l₂ with h | h
    · rw [h]; exact ha₂
    · exact h
  exact le_antisymm
    ((foldlMax_ge a₂ l₂).2 _ (hp.subset m₁mem))
    ((foldlMax_ge a₁ l₁).2 _ (hp.symm.subset m₂mem))

/-- C2: inserting a finite multiset of (instant, label) pairs in any
permutation yields an identical aggregation result — the same buckets with
the same per-series counts, the same running minimum and maximum, and
hence the same base (earliest truncated instant). -/
theorem C2_insertion_order_irrelevant (gap : Int) (items1 items2 : List Item)
    (_hgap : 0 < gap) (hp : items1.Perm items2) :
    aggregate gap items1 = aggregate gap items2
    ∧ (aggregate gap items1).map (fun s => goTruncate gap s.timeMin)
        = (aggregate gap items2).map (fun s => goTruncate gap s.timeMin) := by
  have main : aggregate gap items1 = aggregate gap items2 := by
    cases items1 with
    | nil => cases items2 with
      | nil => rfl
      | cons y t2 => exact absurd hp.symm (by simp)
    | cons x t1 =>
      cases items2 with
      | nil => exact absurd hp (by simp)
      | cons y t2 =>
        simp only [aggregate, Option.some.injEq]
        have hmem1 : x.ts ∈ (x :: t1).map Item.ts := by simp
        have hmem2 : y.ts ∈ (y :: t2).map Item.ts := by simp
        ext t lab
        · rw [foldl_aggStep_timeMin, foldl_aggStep_timeMin]
          exact foldlMin_perm _ _ _ _ (hp.map Item.ts) hmem1 hmem2
        · rw [foldl_aggStep_timeMax, foldl_aggStep_timeMax]
          exact foldlMax_perm _ _ _ _ (hp.map Item.ts) hmem1 hmem2
        · rw [foldl_aggStep_binsF, foldl_aggStep_binsF]
          simp [aggInit, hp.countP_eq]
        · rw [foldl_aggStep_tagsF, foldl_aggStep_tagsF]
          simp [aggInit, hp.countP_eq]
  exact ⟨main, by rw [main]⟩

/-- Witness for C2: a two-item list and its transposition, bucket width 2,
aggregate identically. -/
theorem C2_witness :
    (0 : Int) < 2
    ∧ ([Item.mk 5 ['a'], Item.mk 3 ['b']]).Perm [Item.mk 3 ['b'], Item.mk 5 ['a']]
    ∧ (aggregate 2 [Item.mk 5 ['a'], Item.mk 3 ['b']]
          = aggregate 2 [Item.mk 3 ['b'], Item.mk 5 ['a']]
      ∧ (aggregate 2 [Item.mk 5 ['a'], Item.mk 3 ['b']]).map
            (fun s => goTruncate 2 s.timeMin)
          = (aggregate 2 [Item.mk 3 ['b'], Item.mk 5 ['a']]).map
            (fun s => goTruncate 2 s.timeMin)) :=
  ⟨by decide, by decide,
   C2_insertion_order_irrelevant 2 _ _ (by decide) (by decide)⟩

end TsHist

namespace TsHist

/-! ## Legend and rendering (C7, C8, C1, C10): src/main.go:268-319

The keys of the `tags` map are collected by ranging over the map
(src/main.go:269-271), an order Go leaves unspecified; it is the explicit
`enum` parameter below.  `sort.Slice` sorts them with the comparator
`tags[tagList[i]] > tags[tagList[j]]` — per-label total DESCENDING.  For
the slice sizes exercised here (fewer than 12 elements) Go's pdqsort runs
its insertion-sort path, which never swaps equal elements; the stable
`List.insertionSort` under the non-strict relation `cnt b ≤ cnt a` is that
sort. -/

def sortTags (cnt : List Char → Nat) (enum : List (List Char)) :
    List (List Char) :=
  List.insertionSort (fun a b => cnt b ≤ cnt a) enum

/-- The per-label totals the sort reads (the `tags` map); zero when no line
was ingested. -/
def tagsOf (gap : Int) (items : List Item) : List Char → Nat :=
  match aggregate gap items with
  | none => fun _ => 0
  | some s => s.tagsF

/-- The displayed tag order (src/main.go:268-272). -/
def displayOrder (gap : Int) (items : List Item)
    (enum : List (List Char)) : List (List Char) :=
  sortTags (tagsOf gap items) enum

/-- The legend guard (src/main.go:275): the `Categories:` block is printed
unless the tag list has exactly one entry and it is the empty label. -/
def legendShown (cnt : List Char → Nat) (enum : List (List Char)) : Bool :=
  !(decide (min (sortTags cnt enum).length 8 = 1)
    && decide ((sortTags cnt enum).getD 0 [] = []))

/-- Lexicographic order on labels — the ordering the claim asserts for the
legend. -/
def lexLe : List Char → List Char → Bool
  | [], _ => true
  | _ :: _, [] => false
  | a :: as, b :: bs => if a = b then lexLe as bs else decide (a < b)

def lexSort (enum : List (List Char)) : List (List Char) :=
  List.insertionSort (fun a b => lexLe a b = true) enum

/-- The maximum bin size (src/main.go:286-295) with the `bin-size` option
at its zero default: the maximum per-series count over the `bins` map.
Folding over the items themselves visits every occupied cell of the map
(each nonzero entry was put there by some item), and `max` is idempotent,
so the fold equals the code's max over the map ranges. -/
def binSizeDefault (gap : Int) (items : List Item) : Nat :=
  match aggregate gap items with
  | none => 0
  | some s =>
    items.foldl (fun m it => max m (s.binsF (goTruncate gap it.ts) it.text)) 0

/-- The bar length `opts.BarLength*bin[tag]/binSize` (src/main.go:302). -/
def codeBarLen (barLength : Int) (binSize : Nat) (c : Nat) : Int :=
  Int.tdiv (barLength * (c : Int)) (binSize : Int)

/-- The row loop bounds (src/main.go:299): `tt` runs from
`timeFrom.Truncate(gap)` and steps by `gap` while before
`timeTo.Truncate(gap).Add(gap)`; with the range defaults (src/main.go:260-265)
those ends are the truncated running minimum and maximum.  Both ends lie on
the same `gap` grid, so the loop visits exactly the instants below. -/
def bucketStarts (gap tmn tmx : Int) : List Int :=
  let t0 := goTruncate gap tmn
  let t1 := goTruncate gap tmx
  (List.range ((t1 - t0) / gap + 1).toNat).map (fun i => t0 + gap * (i : Int))

/-- The output the renderer receives, per run (src/main.go:266-319): the
legend lines (empty when suppressed), and for each bucket its start and,
per displayed tag in order, the printed count and bar length — including
the `...others` merging of the eighth row (src/main.go:277-283 and
308-313).  Formatting/alignment is the excluded renderer's concern. -/
def outputOf (gap barLength : Int) (items : List Item)
    (enum : List (List Char)) :
    Option (List (List Char) × List (Int × List (Nat × Int))) :=
  match aggregate gap items with
  | none => none
  | some s =>
    let tl := sortTags s.tagsF enum
    let size := min tl.length 8
    let shown := tl.take size
    let bs := binSizeDefault gap items
    let legend :=
      if legendShown s.tagsF enum then
        shown.enum.map (fun p =>
          if tl.length ≤ 7 ∨ p.1 ≠ 7 then p.2 else "...others".data)
      else []
    let rows := (bucketStarts gap s.timeMin s.timeMax).map (fun tt =>
      (tt, shown.enum.map (fun p =>
        let c0 := s.binsF tt p.2
        let c := if p.1 = 7 ∧ 7 < tl.length then
            (tl.drop 7).foldl (fun a tg => a + s.binsF tt tg) 0
          else c0
        (c, codeBarLen barLength bs c0))))
    some (legend, rows)

/-- The distinct labels observed in the input, of which any map-range
enumeration is a permutation. -/
def observedTags (items : List Item) : List (List Char) :=
  (items.map Item.text).dedup

end TsHist

namespace TsHist

/-! ## Claim C7 -/

/-- C7 counterexample: with observed labels `a` (1 line) and `b` (2 lines),
the display order is `[b, a]` — the sort (src/main.go:272) is by per-label
total count descending, not lexicographic, so the claimed lexicographic
ordering fails on this input. -/
theorem C7_counterexample :
    displayOrder 10 [Item.mk 0 ['a'], Item.mk 1 ['b'], Item.mk 2 ['b']]
        [['a'], ['b']] = [['b'], ['a']]
    ∧ lexSort [['a'], ['b']] = [['a'], ['b']]
    ∧ displayOrder 10 [Item.mk 0 ['a'], Item.mk 1 ['b'], Item.mk 2 ['b']]
        [['a'], ['b']] ≠ lexSort [['a'], ['b']] := by
  decide

/-- C7 amended: the display order of the legend is by per-label total
count descending (a permutation of the enumerated labels; ties keep the
map-enumeration order, which Go leaves unspecified); the suppression clause
of the claim does hold: the legend is suppressed exactly when the sole
entry of the tag list is the empty label. -/
theorem C7_amended_count_descending (cnt : List Char → Nat)
    (enum : List (List Char)) :
    (sortTags cnt enum).Perm enum
    ∧ (sortTags cnt enum).Sorted (fun a b => cnt b ≤ cnt a)
    ∧ (legendShown cnt enum = false ↔ sortTags cnt enum = [[]]) := by
  refine ⟨List.perm_insertionSort _ _, ?_, ?_⟩
  · haveI : IsTotal (List Char) (fun a b => cnt b ≤ cnt a) :=
      ⟨fun a b => le_total (cnt b) (cnt a)⟩
    haveI : IsTrans (List Char) (fun a b => cnt b ≤ cnt a) :=
      ⟨fun a b c h1 h2 => le_trans h2 h1⟩
    exact List.sorted_insertionSort _ _
  · rcases h : sortTags cnt enum with _ | ⟨t, _ | ⟨u, r⟩⟩
    · simp [legendShown, h]
    · by_cases ht : t = [] <;> simp [legendShown, h, ht]
    · constructor
      · intro hx
        exfalso
        unfold legendShown at hx
        rw [h] at hx
        simp at hx
        obtain ⟨h1, _⟩ := hx
        omega
      · intro hx
        exfalso
        have hlen : (t :: u :: r).length = 1 := by rw [hx]; rfl
        simp only [List.length_cons] at hlen
        omega

/-! ## Claim C8 -/

/-- C8 counterexample: two runs on the identical input stream (labels `a`
and `b`, one line each).  Go's map iteration order is not fixed across
runs; both enumerations below are orders of the same observed-label set,
yet the produced outputs differ — with tied totals the count-descending
sort preserves whichever enumeration the map range produced, so the legend
and the per-row segment order come out reversed.  The pipeline is therefore
not deterministic for identical inputs. -/
theorem C8_counterexample :
    ([['a'], ['b']] : List (List Char)).Perm
        (observedTags [Item.mk 0 ['a'], Item.mk 1 ['b']])
    ∧ ([['b'], ['a']] : List (List Char)).Perm
        (observedTags [Item.mk 0 ['a'], Item.mk 1 ['b']])
    ∧ outputOf 10 60 [Item.mk 0 ['a'], Item.mk 1 ['b']] [['a'], ['b']]
        ≠ outputOf 10 60 [Item.mk 0 ['a'], Item.mk 1 ['b']] [['b'], ['a']] := by
  decide

lemma sortTags_eq_of_perm (cnt : List Char → Nat) (l1 l2 : List (List Char))
    (hp : l1.Perm l2) (hd : l1.Pairwise (fun a b => cnt a ≠ cnt b)) :
    sortTags cnt l1 = sortTags cnt l2 := by
  have hsymm : ∀ {x y : List Char},
      cnt x ≠ cnt y → cnt y ≠ cnt x := fun h => h.symm
  have hp1 := List.perm_insertionSort (fun a b => cnt b ≤ cnt a) l1
  have hp2 := List.perm_insertionSort (fun a b => cnt b ≤ cnt a) l2
  haveI : IsTotal (List Char) (fun a b => cnt b ≤ cnt a) :=
    ⟨fun a b => le_total (cnt b) (cnt a)⟩
  haveI : IsTrans (List Char) (fun a b => cnt b ≤ cnt a) :=
    ⟨fun a b c h1 h2 => le_trans h2 h1⟩
  have hs1 := List.sorted_insertionSort (fun a b => cnt b ≤ cnt a) l1
  have hs2 := List.sorted_insertionSort (fun a b => cnt b ≤ cnt a) l2
  have hd1 : (sortTags cnt l1).Pairwise (fun a b => cnt a ≠ cnt b) :=
    (hp1.pairwise_iff hsymm).mpr hd
  have hd2 : (sortTags cnt l2).Pairwise (fun a b => cnt a ≠ cnt b) :=
    (hp2.pairwise_iff hsymm).mpr ((hp.pairwise_iff hsymm).mp hd)
  haveI : IsAntisymm (List Char)
      (fun a b => cnt b < cnt a ∨ (cnt a = cnt b ∧ a = b)) := by
    refine ⟨fun a b h1 h2 => ?_⟩
    rcases h1 with h1 | h1
    · rcases h2 with h2 | h2
      · exact absurd (lt_trans h1 h2) (lt_irrefl _)
      · exact h2.2.symm
    · exact h1.2
  have hds1 : (sortTags cnt l1).Pairwise
      (fun a b => cnt b < cnt a ∨ (cnt a = cnt b ∧ a = b)) :=
    (hs1.and hd1).imp (fun h => by
      rcases lt_or_eq_of_le h.1 with h' | h'
      · exact Or.inl h'
      · exact absurd h'.symm h.2)
  have hds2 : (sortTags cnt l2).Pairwise
      (fun a b => cnt b < cnt a ∨ (cnt a = cnt b ∧ a = b)) :=
    (hs2.and hd2).imp (fun h => by
      rcases lt_or_eq_of_le h.1 with h' | h'
      · exact Or.inl h'
      · exact absurd h'.symm h.2)
  exact @List.eq_of_perm_of_sorted (List Char)
    (fun a b => cnt b < cnt a ∨ (cnt a = cnt b ∧ a = b)) this _ _
    (hp1.trans (hp.trans hp2.symm)) hds1 hds2

/-- C8 amended: the output is a function of the input stream and of the
order in which Go's map range enumerates the observed labels; whenever the
per-label totals are pairwise distinct, the count-descending sort cancels
the enumeration order and the output is identical across runs.  (Labels
with tied totals can appear in either order across two runs, as the
counterexample shows.) -/
theorem C8_amended_deterministic_when_totals_distinct
    (gap barLength : Int) (items : List Item)
    (enum1 enum2 : List (List Char)) (hp : enum1.Perm enum2)
    (hd : enum1.Pairwise (fun a b => tagsOf gap items a ≠ tagsOf gap items b)) :
    outputOf gap barLength items enum1 = outputOf gap barLength items enum2 := by
  cases haggr : aggregate gap items with
  | none => simp [outputOf, haggr]
  | some s =>
    have htf : tagsOf gap items = s.tagsF := by simp [tagsOf, haggr]
    rw [htf] at hd
    simp only [outputOf, haggr]
    rw [sortTags_eq_of_perm s.tagsF enum1 enum2 hp hd,
      show legendShown s.tagsF enum1 = legendShown s.tagsF enum2 from by
        simp [legendShown, sortTags_eq_of_perm s.tagsF enum1 enum2 hp hd]]

/-- Witness for C8's amended determinism: distinct totals (`a` once, `b`
twice), two enumeration orders, equal outputs. -/
theorem C8_witness :
    ([['a'], ['b']] : List (List Char)).Perm [['b'], ['a']]
    ∧ List.Pairwise
        (fun a b => tagsOf 10 [Item.mk 0 ['a'], Item.mk 1 ['b'], Item.mk 2 ['b']] a
          ≠ tagsOf 10 [Item.mk 0 ['a'], Item.mk 1 ['b'], Item.mk 2 ['b']] b)
        [['a'], ['b']]
    ∧ outputOf 10 60 [Item.mk 0 ['a'], Item.mk 1 ['b'], Item.mk 2 ['b']]
          [['a'], ['b']]
        = outputOf 10 60 [Item.mk 0 ['a'], Item.mk 1 ['b'], Item.mk 2 ['b']]
          [['b'], ['a']] :=
  ⟨by decide, by decide,
   C8_amended_deterministic_when_totals_distinct 10 60 _ _ _
     (by decide) (by decide)⟩

end TsHist

namespace TsHist

/-! ## Claim C1: the per-bucket bar lengths -/

/-- The bar lengths a bucket's row displays (src/main.go:299-316): for each
displayed tag, `opts.BarLength*bin[tag]/binSize` — each series scaled
independently against the global per-series maximum, with no per-bucket
normalization. -/
def barLensAt (gap barLength : Int) (items : List Item)
    (enum : List (List Char)) (tt : Int) : List Int :=
  match aggregate gap items with
  | none => []
  | some s =>
    let tl := sortTags s.tagsF enum
    (tl.take (min tl.length 8)).map
      (fun tag => codeBarLen barLength (binSizeDefault gap items) (s.binsF tt tag))

/-- Modelled from the spec: the Bar Allocator's per-bucket target length
(spec section 4.5), `L = floor(barBudget * N / maxBucketTotal)`, stated for
comparison with the code's lengths; no such allocator exists in src/. -/
def specTargetLen (barBudget : Int) (n maxTot : Nat) : Int :=
  Int.tdiv (barBudget * (n : Int)) (maxTot : Int)

/-- C1 counterexample: for the claim's own example — one bucket with series
counts a: 7, b: 3 and bar budget 10 (so the bucket's target length is
L = floor(10·10/10) = 10) — the code computes the lengths independently as
floor(10·7/7) = 10 and floor(10·3/7) = 4 (binSize defaults to the maximum
per-series count, 7).  They sum to 14, not to L = 10: no allocator
normalizes the bucket's lengths to a target total. -/
theorem C1_counterexample :
    barLensAt 10 10
        (List.replicate 7 (Item.mk 0 ['a']) ++ List.replicate 3 (Item.mk 1 ['b']))
        [['a'], ['b']] 0 = [10, 4]
    ∧ specTargetLen 10 10 10 = 10
    ∧ (barLensAt 10 10
        (List.replicate 7 (Item.mk 0 ['a']) ++ List.replicate 3 (Item.mk 1 ['b']))
        [['a'], ['b']] 0).sum ≠ specTargetLen 10 10 10 := by
  decide

/-- C1 amended: each series' bar length is computed independently as
floor(barLength·n_s/binSize), where binSize is the maximum per-series
count over all buckets; lengths are nonnegative, never exceed the
configured bar length while the count is within binSize, and their
per-bucket sum is not normalized to the spec's target L — in the
{a: 7, b: 3} example with barLength 10 the lengths are 10 and 4, and `a`
does receive at least its proportional floor of 7. -/
theorem C1_amended_independent_scaling (bl : Int) (c bs : Nat)
    (h1 : 0 ≤ bl) (h2 : c ≤ bs) :
    0 ≤ codeBarLen bl bs c
    ∧ codeBarLen bl bs c ≤ bl
    ∧ barLensAt 10 10
        (List.replicate 7 (Item.mk 0 ['a']) ++ List.replicate 3 (Item.mk 1 ['b']))
        [['a'], ['b']] 0 = [10, 4]
    ∧ specTargetLen 10 7 10
        ≤ (barLensAt 10 10
            (List.replicate 7 (Item.mk 0 ['a']) ++ List.replicate 3 (Item.mk 1 ['b']))
            [['a'], ['b']] 0).getD 0 0 := by
  have hnn : (0 : Int) ≤ bl * (c : Int) :=
    mul_nonneg h1 (Int.ofNat_nonneg c)
  refine ⟨Int.tdiv_nonneg hnn (Int.ofNat_nonneg bs), ?_, by decide, by decide⟩
  rcases Nat.eq_zero_or_pos bs with hbs | hbs
  · have hc : c = 0 := Nat.le_zero.mp (hbs ▸ h2)
    simp [codeBarLen, hc, Int.zero_tdiv]
    exact h1
  · have hbs' : (0 : Int) < (bs : Int) := Int.ofNat_pos.mpr hbs
    have hmono : bl * (c : Int) ≤ bl * (bs : Int) :=
      mul_le_mul_of_nonneg_left (Int.ofNat_le.mpr h2) h1
    calc codeBarLen bl bs c
        = (bl * (c : Int)) / (bs : Int) :=
          Int.tdiv_eq_ediv hnn (Int.ofNat_nonneg bs)
      _ ≤ (bl * (bs : Int)) / (bs : Int) := Int.ediv_le_ediv hbs' hmono
      _ = bl := Int.mul_ediv_cancel bl (ne_of_gt hbs')

/-- Witness for the amended C1 at barLength 10, count 3, binSize 7. -/
theorem C1_witness :
    (0 : Int) ≤ 10 ∧ (3 : Nat) ≤ 7
    ∧ (0 ≤ codeBarLen 10 7 3
      ∧ codeBarLen 10 7 3 ≤ 10
      ∧ barLensAt 10 10
          (List.replicate 7 (Item.mk 0 ['a']) ++ List.replicate 3 (Item.mk 1 ['b']))
          [['a'], ['b']] 0 = [10, 4]
      ∧ specTargetLen 10 7 10
          ≤ (barLensAt 10 10
              (List.replicate 7 (Item.mk 0 ['a']) ++ List.replicate 3 (Item.mk 1 ['b']))
              [['a'], ['b']] 0).getD 0 0) :=
  ⟨by decide, by decide,
   C1_amended_independent_scaling 10 3 7 (by decide) (by decide)⟩

end TsHist

namespace TsHist

/-! ## The array-based aggregator of the older variant (C9):
src/main.go:511-562 (second half of the concatenated file)

This variant has no labels: it folds plain instants.  `bins` is a dense
slice indexed from the truncated minimum; the claim is about its index
computation. -/

/-- `time.Time.UnixMicro()`: Go stores floored seconds with nanoseconds in
`[0, 1e9)`, so the microsecond count is the floor division of the
nanosecond timestamp by 1000. -/
def unixMicro (tns : Int) : Int := Int.fdiv tns 1000

/-- `time.Duration.Microseconds()`: Go integer division (toward zero) of
the nanosecond count by 1000. -/
def durMicros (dns : Int) : Int := Int.tdiv dns 1000

/-- The running minimum (src/main.go:534-549): seeded from `items[0]`,
then one pass over all the items. -/
def minTs (x : Int) (xs : List Int) : Int := (x :: xs).foldl min x

def maxTs (x : Int) (xs : List Int) : Int := (x :: xs).foldl max x

/-- `len(bins)` (src/main.go:555):
`(tmax.UnixMicro()-tmin.UnixMicro())/wid.Microseconds()+1` with `tmin`,
`tmax` the truncated extremes (src/main.go:551-552). -/
def binsLen (wid x : Int) (xs : List Int) : Int :=
  Int.tdiv
    (unixMicro (goTruncate wid (maxTs x xs))
      - unixMicro (goTruncate wid (minTs x xs)))
    (durMicros wid) + 1

/-- The bucket index an item is counted at (src/main.go:557):
`(item.UnixMicro() - tmin.UnixMicro()) / wid.Microseconds()`. -/
def binIdx (wid x : Int) (xs : List Int) (t : Int) : Int :=
  Int.tdiv (unixMicro t - unixMicro (goTruncate wid (minTs x xs)))
    (durMicros wid)

/-- C9 counterexample: the claim promises `0 ≤ idx < len(bins)` for every
positive interval, but truncation works at nanosecond resolution while the
index arithmetic works on microseconds.  With the positive interval 1500ns
and a single item at 2999ns past the epoch: `tmin = 1500ns`, so
`tmin.UnixMicro() = 1`, the item's `UnixMicro()` is 2, `wid.Microseconds()`
is 1, the slice length is (1-1)/1+1 = 1, yet the item's index is
(2-1)/1 = 1 — `bins[1]` is out of range and the program panics. -/
theorem C9_counterexample :
    (0 : Int) < 1500
    ∧ binsLen 1500 2999 [] = 1
    ∧ binIdx 1500 2999 [] 2999 = 1
    ∧ ¬ (0 ≤ binIdx 1500 2999 [] 2999
        ∧ binIdx 1500 2999 [] 2999 < binsLen 1500 2999 []) := by
  decide

lemma trunc_grid (wid t : Int) (hw : 0 < wid) :
    goTruncate wid t ≤ t ∧ t < goTruncate wid t + wid
    ∧ wid ∣ (goTruncate wid t + zeroOffsetNs) := by
  have hne : wid ≠ 0 := ne_of_gt hw
  simp only [goTruncate, if_pos hw]
  refine ⟨?_, ?_, ?_⟩
  · have := Int.emod_nonneg (t + zeroOffsetNs) hne
    omega
  · have := Int.emod_lt_of_pos (t + zeroOffsetNs) hw
    omega
  · refine ⟨(t + zeroOffsetNs) / wid, ?_⟩
    have h2 := Int.emod_def (t + zeroOffsetNs) wid
    rw [h2]
    ring

lemma idx_bounds (wid tmn tmx t : Int) (hw : 0 < wid)
    (hd : (1000 : Int) ∣ wid) (h1 : tmn ≤ t) (h2 : t ≤ tmx) :
    0 ≤ Int.tdiv (unixMicro t - unixMicro (goTruncate wid tmn)) (durMicros wid)
    ∧ Int.tdiv (unixMicro t - unixMicro (goTruncate wid tmn)) (durMicros wid)
        < Int.tdiv
            (unixMicro (goTruncate wid tmx) - unixMicro (goTruncate wid tmn))
            (durMicros wid) + 1 := by
  obtain ⟨w, hwid⟩ := hd
  subst hwid
  have hwpos : 0 < w := by omega
  have hdm : durMicros (1000 * w) = w :=
    Int.mul_tdiv_cancel_left w (by norm_num)
  have hA : (1000 : Int) ∣ zeroOffsetNs :=
    ⟨62135596800000000, by norm_num [zeroOffsetNs]⟩
  obtain ⟨hmn1, _, hmnd⟩ := trunc_grid (1000 * w) tmn hw
  obtain ⟨htx1, htx2, htxd⟩ := trunc_grid (1000 * w) tmx hw
  have h1000min : (1000 : Int) ∣ goTruncate (1000 * w) tmn := by
    have ha : (1000 : Int) ∣ (goTruncate (1000 * w) tmn + zeroOffsetNs) :=
      dvd_trans (Dvd.intro w rfl) hmnd
    have := dvd_sub ha hA
    simpa using this
  have h1000max : (1000 : Int) ∣ goTruncate (1000 * w) tmx := by
    have ha : (1000 : Int) ∣ (goTruncate (1000 * w) tmx + zeroOffsetNs) :=
      dvd_trans (Dvd.intro w rfl) htxd
    have := dvd_sub ha hA
    simpa using this
  obtain ⟨m, hm⟩ := h1000min
  obtain ⟨bigM, hM⟩ := h1000max
  have hgrid : (1000 * w : Int) ∣ (goTruncate (1000 * w) tmx
      - goTruncate (1000 * w) tmn) := by
    have := dvd_sub htxd hmnd
    simpa using this
  have hMm : (1000 * w : Int) ∣ 1000 * (bigM - m) := by
    rw [mul_sub, ← hm, ← hM]
    exact hgrid
  have hwMm : (w : Int) ∣ (bigM - m) :=
    (mul_dvd_mul_iff_left (show (1000 : Int) ≠ 0 by norm_num)).mp hMm
  obtain ⟨k, hk⟩ := hwMm
  -- k is nonnegative: the truncated maximum is at least the truncated min
  have hmaxmin : goTruncate (1000 * w) tmn ≤ goTruncate (1000 * w) tmx + 1000 * w - 1 := by
    have : goTruncate (1000 * w) tmn ≤ tmx := le_trans hmn1 (le_trans h1 h2)
    omega
  have hknn : 0 ≤ k := by
    have hlt : (1000 * w) * (-1 : Int) < (1000 * w) * k := by
      have : -(1000 * w) < 1000 * (bigM - m) := by
        rw [mul_sub, ← hm, ← hM]
        omega
      rw [hk] at this
      calc (1000 * w) * (-1 : Int) = -(1000 * w) := by ring
        _ < 1000 * (w * k) := this
        _ = (1000 * w) * k := by ring
    have := lt_of_mul_lt_mul_left hlt (le_of_lt hw)
    omega
  -- microsecond values of the aligned bounds are exact
  have hui_min : unixMicro (goTruncate (1000 * w) tmn) = m := by
    rw [hm, unixMicro, Int.fdiv_eq_ediv _ (by norm_num)]
    exact Int.mul_ediv_cancel_left m (by norm_num)
  have hui_max : unixMicro (goTruncate (1000 * w) tmx) = bigM := by
    rw [hM, unixMicro, Int.fdiv_eq_ediv _ (by norm_num)]
    exact Int.mul_ediv_cancel_left bigM (by norm_num)
  have hui_t : unixMicro t = t / 1000 := Int.fdiv_eq_ediv _ (by norm_num)
  -- the index numerator is a floor division of the nanosecond distance
  have hshift : t / 1000 - m = (t - 1000 * m) / 1000 := by
    have h' := Int.add_mul_ediv_right (t - 1000 * m) m
      (show (1000 : Int) ≠ 0 by norm_num)
    rw [show t - 1000 * m + m * 1000 = t from by ring] at h'
    omega
  have hn0 : 0 ≤ t - 1000 * m := by
    have := hmn1
    rw [hm] at this
    omega
  have hn1000 : 0 ≤ (t - 1000 * m) / 1000 :=
    Int.ediv_nonneg hn0 (by norm_num)
  have hidx : Int.tdiv (unixMicro t - unixMicro (goTruncate (1000 * w) tmn))
      (durMicros (1000 * w)) = ((t - 1000 * m) / 1000) / w := by
    rw [hui_t, hui_min, hdm, hshift]
    exact Int.tdiv_eq_ediv hn1000 (le_of_lt hwpos)
  have hlen : Int.tdiv (unixMicro (goTruncate (1000 * w) tmx)
      - unixMicro (goTruncate (1000 * w) tmn)) (durMicros (1000 * w)) = k := by
    rw [hui_max, hui_min, hdm]
    have hMmk : bigM - m = w * k := hk
    rw [hMmk, Int.tdiv_eq_ediv (by positivity) (le_of_lt hwpos)]
    exact Int.mul_ediv_cancel_left k (ne_of_gt hwpos)
  constructor
  · rw [hidx]
    exact Int.ediv_nonneg hn1000 (le_of_lt hwpos)
  · rw [hidx, hlen]
    -- t is below the next grid point after the truncated maximum
    have hup : t - 1000 * m < 1000 * (w * (k + 1)) := by
      have htm : t < goTruncate (1000 * w) tmx + 1000 * w := lt_of_le_of_lt h2 htx2
      rw [hM] at htm
      have : (bigM : Int) = m + w * k := by omega
      rw [this] at htm
      calc t - 1000 * m < 1000 * (m + w * k) + 1000 * w - 1000 * m := by omega
        _ = 1000 * (w * (k + 1)) := by ring
    have hstep1 : (t - 1000 * m) / 1000 < w * (k + 1) :=
      (Int.ediv_lt_iff_lt_mul (by norm_num)).mpr
        (by calc t - 1000 * m < 1000 * (w * (k + 1)) := hup
              _ = w * (k + 1) * 1000 := by ring)
    have hstep2 : (t - 1000 * m) / 1000 ≤ w - 1 + k * w := by
      have : (t - 1000 * m) / 1000 ≤ w * (k + 1) - 1 := by omega
      calc (t - 1000 * m) / 1000 ≤ w * (k + 1) - 1 := this
        _ = w - 1 + k * w := by ring
    calc ((t - 1000 * m) / 1000) / w
        ≤ (w - 1 + k * w) / w := Int.ediv_le_ediv hwpos hstep2
      _ = (w - 1) / w + k :=
          Int.add_mul_ediv_right (w - 1) k (ne_of_gt hwpos)
      _ = k := by
          rw [Int.ediv_eq_zero_of_lt (by omega) (by omega)]
          ring
      _ < k + 1 := by omega

/-- C9 amended: the in-bounds guarantee `0 ≤ idx < len(bins)` holds for
every positive interval that is a whole number of microseconds (the
microsecond-resolution index arithmetic then agrees with the
nanosecond-resolution truncation); the truncated running minimum is no
later than any item and the truncated maximum no earlier.  For positive
sub-microsecond-granular intervals (e.g. 1500ns) the claim fails, as the
counterexample shows. -/
theorem C9_amended_in_bounds (wid x t : Int) (xs : List Int)
    (hw : 0 < wid) (hd : (1000 : Int) ∣ wid) (ht : t ∈ x :: xs) :
    0 ≤ binIdx wid x xs t ∧ binIdx wid x xs t < binsLen wid x xs := by
  have hmn : minTs x xs ≤ t := (foldlMin_le x (x :: xs)).2 t ht
  have hmx : t ≤ maxTs x xs := (foldlMax_ge x (x :: xs)).2 t ht
  exact idx_bounds wid (minTs x xs) (maxTs x xs) t hw hd hmn hmx

/-- Witness for the amended C9: the default 5m interval (whole
microseconds) and a single item keep the index at 0 within length 1. -/
theorem C9_witness :
    (0 : Int) < 300000000000
    ∧ (1000 : Int) ∣ (300000000000 : Int)
    ∧ (2999 : Int) ∈ [(2999 : Int)]
    ∧ (0 ≤ binIdx 300000000000 2999 [] 2999
      ∧ binIdx 300000000000 2999 [] 2999 < binsLen 300000000000 2999 []) :=
  ⟨by decide, by decide, by decide,
   C9_amended_in_bounds 300000000000 2999 2999 [] (by decide) (by decide)
     (by decide)⟩

end TsHist

namespace TsHist

/-! ## Claim C10: the default scaling divisor is positive -/

lemma le_foldl_max (f : Item → Nat) (l : List Item) (a : Nat) :
    a ≤ l.foldl (fun m x => max m (f x)) a := by
  induction l generalizing a with
  | nil => exact le_refl a
  | cons y ys ih => exact le_trans (Nat.le_max_left a (f y)) (ih _)

lemma foldl_max_mem_le (f : Item → Nat) (it : Item) :
    ∀ (l : List Item) (a : Nat), it ∈ l →
      f it ≤ l.foldl (fun m x => max m (f x)) a
  | [], _, h => absurd h (List.not_mem_nil _)
  | y :: ys, a, h => by
    rcases List.mem_cons.mp h with rfl | h'
    · exact le_trans (Nat.le_max_right a (f it)) (le_foldl_max f ys _)
    · exact foldl_max_mem_le f it ys (max a (f y)) h'

/-- C10: with at least one parsed item and the `bin-size` option at its
zero default, the computed divisor — the maximum per-series count over all
buckets (src/main.go:286-295) — is at least 1, so
`opts.BarLength*bin[tag]/binSize` (src/main.go:302) never divides by zero,
and with the (per the spec, positive) bar length the repetition count
handed to `strings.Repeat` is never negative. -/
theorem C10_default_divisor_positive (gap : Int) (x : Item)
    (rest : List Item) (bl : Int) (hbl : 0 ≤ bl) (c : Nat) :
    1 ≤ binSizeDefault gap (x :: rest)
    ∧ 0 ≤ codeBarLen bl (binSizeDefault gap (x :: rest)) c := by
  constructor
  · -- the head item's own bucket cell holds at least one count
    have hcount : 1 ≤ ((x :: rest).foldl (aggStep gap) (aggInit x)).binsF
        (goTruncate gap x.ts) x.text := by
      rw [foldl_aggStep_binsF]
      have hpos : 0 < (x :: rest).countP (fun it =>
          decide (goTruncate gap x.ts = goTruncate gap it.ts)
            && decide (x.text = it.text)) :=
        List.countP_pos_iff.mpr ⟨x, List.mem_cons_self x rest, by simp⟩
      simp only [aggInit]
      omega
    calc 1 ≤ ((x :: rest).foldl (aggStep gap) (aggInit x)).binsF
          (goTruncate gap x.ts) x.text := hcount
      _ ≤ (x :: rest).foldl (fun m it =>
            max m (((x :: rest).foldl (aggStep gap) (aggInit x)).binsF
              (goTruncate gap it.ts) it.text)) 0 :=
          foldl_max_mem_le
            (fun it => ((x :: rest).foldl (aggStep gap) (aggInit x)).binsF
              (goTruncate gap it.ts) it.text)
            x (x :: rest) 0 (List.mem_cons_self x rest)
      _ = binSizeDefault gap (x :: rest) := by
          simp [binSizeDefault, aggregate]
  · exact Int.tdiv_nonneg (mul_nonneg hbl (Int.ofNat_nonneg c))
      (Int.ofNat_nonneg _)

/-- Witness for C10 with one item, the default bar length 60 and an
arbitrary count 5. -/
theorem C10_witness :
    (0 : Int) ≤ 60
    ∧ (1 ≤ binSizeDefault 10 [Item.mk 0 ['a']]
      ∧ 0 ≤ codeBarLen 60 (binSizeDefault 10 [Item.mk 0 ['a']]) 5) :=
  ⟨by decide,
   C10_default_divisor_positive 10 (Item.mk 0 ['a']) [] 60 (by decide) 5⟩

end TsHist
